import Mathlib

/-
Verification of the tree-manipulation core of the Shiptech-PMS project store.

The repository contains two parallel store implementations:
  * the task store (interface `Task`, functions `getTaskByPath`,
    `addTask`/`updateNestedTasks`, `updateTask`/`updateNestedTask`,
    `deleteTask`/`deleteNestedTask`, `cleanTasks`/`cleanProjectData`,
    `fetchUserTasks`/`findUserTasks`), and
  * `src/store/projectStore.ts` (interfaces `Deliverable`/`SubTask`,
    functions `getItemByPath`, `updateSubTask`/`updateTaskInItem`,
    `deleteSubTask`/`deleteTaskFromItem`).

Both are embedded below as pure Lean functions.  JavaScript `undefined`
for an optional field is modelled as `Option.none`; JavaScript's
falsy-`||` defaulting is translated literally (empty string and zero are
falsy).  One small heap model is also provided, because one source
function (`deleteNestedTask`) assigns to `task.children` in place and a
pure value embedding cannot express that assignment.
-/

set_option maxHeartbeats 1000000

namespace Shiptech

/-- User reference embedded by value in a task's assignment list
(source: `interface User { id; fullName; email }`). -/
structure UserRef where
  id : String
  fullName : String
  email : String
deriving Repr, DecidableEq

/-- Path segment of the task store (source: `interface PathItem { id: string }`). -/
structure PathItem where
  id : String
deriving Repr, DecidableEq

/-- Task node of the task store (source: `interface Task`).  Optional
fields of the TypeScript interface (`hours?`, `costPerHour?`,
`assignedTo?`, `deadline?`, `projectId?`) are `Option`s. -/
inductive Task where
  | mk (id name description : String) (hours costPerHour : Option Int)
       (assignedTo : Option (List UserRef)) (deadline : Option String)
       (completed : Bool) (children : List Task) (projectId : Option String)

/-- Field accessor for `Task.id`. -/
def Task.id : Task → String
  | .mk i _ _ _ _ _ _ _ _ _ => i

/-- Field accessor for `Task.name`. -/
def Task.name : Task → String
  | .mk _ n _ _ _ _ _ _ _ _ => n

/-- Field accessor for `Task.description`. -/
def Task.description : Task → String
  | .mk _ _ d _ _ _ _ _ _ _ => d

/-- Field accessor for `Task.hours`. -/
def Task.hours : Task → Option Int
  | .mk _ _ _ h _ _ _ _ _ _ => h

/-- Field accessor for `Task.costPerHour`. -/
def Task.costPerHour : Task → Option Int
  | .mk _ _ _ _ c _ _ _ _ _ => c

/-- Field accessor for `Task.assignedTo`. -/
def Task.assignedTo : Task → Option (List UserRef)
  | .mk _ _ _ _ _ a _ _ _ _ => a

/-- Field accessor for `Task.deadline`. -/
def Task.deadline : Task → Option String
  | .mk _ _ _ _ _ _ d _ _ _ => d

/-- Field accessor for `Task.completed`. -/
def Task.completed : Task → Bool
  | .mk _ _ _ _ _ _ _ c _ _ => c

/-- Field accessor for `Task.children`. -/
def Task.children : Task → List Task
  | .mk _ _ _ _ _ _ _ _ c _ => c

/-- Field accessor for `Task.projectId`. -/
def Task.projectId : Task → Option String
  | .mk _ _ _ _ _ _ _ _ _ p => p

/-- Functional update of the `children` field, the Lean rendering of the
spread `{ ...task, children: cs }`. -/
def Task.withChildren : Task → List Task → Task
  | .mk i n d h c a dl cm _ pj, cs => .mk i n d h c a dl cm cs pj

/-- Loop body of the source `getTaskByPath`: the running state is the
pair (`current`, `items`) of the `for (const pathItem of path)` loop;
`items.find(item => item.id === pathItem.id)` either fails (early
`return null`) or becomes the new `current`, with `items` reset to
`found.children || []`. -/
def getTaskByPathAux : Option Task → List Task → List PathItem → Option Task
  | cur, _, [] => cur
  | _, ts, p :: rest =>
    match ts.find? (fun t => t.id == p.id) with
    | none => none
    | some found => getTaskByPathAux (some found) found.children rest

/-- Source `getTaskByPath` restricted to its pure tree part: the loop of
the store method, started with `current = null` and `items = project.tasks`. -/
def getTaskByPath (ts : List Task) (path : List PathItem) : Option Task :=
  getTaskByPathAux none ts path

/-- Specification-side resolver, written from the spec's words: match
each segment's id in the current candidate list, descend into the found
node's children, return the node reached by the last segment; any failed
match and the empty path give `none`. -/
def resolveSpec : List Task → List PathItem → Option Task
  | _, [] => none
  | ts, p :: rest =>
    match ts.find? (fun t => t.id == p.id) with
    | none => none
    | some t => if rest = [] then some t else resolveSpec t.children rest

theorem getTaskByPathAux_eq_resolveSpec (P : List PathItem) (hP : P ≠ []) :
    ∀ (cur : Option Task) (ts : List Task),
      getTaskByPathAux cur ts P = resolveSpec ts P := by
  induction P with
  | nil => exact absurd rfl hP
  | cons p rest ih =>
    intro cur ts
    simp only [getTaskByPathAux, resolveSpec]
    cases h : ts.find? (fun t => t.id == p.id) with
    | none => rfl
    | some t =>
      cases rest with
      | nil => simp [getTaskByPathAux]
      | cons q rest2 => simpa using ih (by simp) (some t) t.children

/-- Path-segment type tag of `projectStore.ts` (source:
`type: 'deliverable' | 'subtask'`). -/
inductive PType where
  | deliverable
  | subtask
deriving Repr, DecidableEq, BEq

/-- Path segment of `projectStore.ts` (source:
`interface PathItem { type: 'deliverable' | 'subtask'; id: string }`). -/
structure PathItemPS where
  type : PType
  id : String
deriving Repr, DecidableEq

/-- Sub-task node of `projectStore.ts` (source: `interface SubTask`);
`description`, `assignedTo` and `deadline` are optional there, and
assignment is to a single user. -/
inductive SubTask where
  | mk (id name : String) (description : Option String)
       (assignedTo : Option UserRef) (deadline : Option String)
       (completed : Bool) (subTasks : List SubTask)

/-- Field accessor for `SubTask.id`. -/
def SubTask.id : SubTask → String
  | .mk i _ _ _ _ _ _ => i

/-- Field accessor for `SubTask.name`. -/
def SubTask.name : SubTask → String
  | .mk _ n _ _ _ _ _ => n

/-- Field accessor for `SubTask.description`. -/
def SubTask.description : SubTask → Option String
  | .mk _ _ d _ _ _ _ => d

/-- Field accessor for `SubTask.assignedTo`. -/
def SubTask.assignedTo : SubTask → Option UserRef
  | .mk _ _ _ a _ _ _ => a

/-- Field accessor for `SubTask.deadline`. -/
def SubTask.deadline : SubTask → Option String
  | .mk _ _ _ _ d _ _ => d

/-- Field accessor for `SubTask.completed`. -/
def SubTask.completed : SubTask → Bool
  | .mk _ _ _ _ _ c _ => c

/-- Field accessor for `SubTask.subTasks`. -/
def SubTask.subTasks : SubTask → List SubTask
  | .mk _ _ _ _ _ _ s => s

/-- Functional update of a sub-task's `subTasks` field (the spread
`{ ...t, subTasks: ss }`). -/
def SubTask.withSubTasks : SubTask → List SubTask → SubTask
  | .mk i n d a dl c _, ss => .mk i n d a dl c ss

/-- Deliverable node of `projectStore.ts` (source: `interface Deliverable`). -/
structure Deliverable where
  id : String
  name : String
  description : String
  hours : Option Int
  costPerHour : Option Int
  assignedTo : Option UserRef
  deadline : Option String
  completed : Bool
  subTasks : List SubTask

/-- Value of the TypeScript union `Deliverable | SubTask`, the type the
`projectStore.ts` tree walkers operate on. -/
inductive Item where
  | deliv (d : Deliverable)
  | sub (s : SubTask)

/-- The `subTasks` field of either member of the union, as accessed by
`currentItem.subTasks` in `getItemByPath`. -/
def Item.subTasks : Item → List SubTask
  | .deliv d => d.subTasks
  | .sub s => s.subTasks

/-- Loop body of the source `getItemByPath`: `currentItem` starts as
`null`; at index 0 with a `deliverable` tag the candidate list is
`project.deliverables`, otherwise (when `currentItem` exists) it is
`currentItem.subTasks`; any failed `find` returns `null` at once.  The
Boolean argument records whether the loop index `i` is 0. -/
def getItemByPathAux (ds : List Deliverable) :
    Option Item → Bool → List PathItemPS → Option Item
  | cur, _, [] => cur
  | cur, isFirst, p :: rest =>
    let next : Option Item :=
      if isFirst && p.type == PType.deliverable then
        (ds.find? (fun d => d.id == p.id)).map Item.deliv
      else
        match cur with
        | some it => ((it.subTasks).find? (fun t => t.id == p.id)).map Item.sub
        | none => none
    match next with
    | none => none
    | some it => getItemByPathAux ds (some it) false rest

/-- Source `getItemByPath` restricted to its pure tree part: the loop of
the store method over the fetched project's `deliverables`. -/
def getItemByPath (ds : List Deliverable) (path : List PathItemPS) : Option Item :=
  getItemByPathAux ds none true path

/-- Specification-side resolver for the sub-task levels of
`getItemByPath`: match each remaining segment's id in the current
candidate list of sub-tasks and descend. -/
def resolveItemSubSpec : List SubTask → List PathItemPS → Option Item
  | _, [] => none
  | ss, p :: rest =>
    match ss.find? (fun s => s.id == p.id) with
    | none => none
    | some s => if rest = [] then some (Item.sub s) else resolveItemSubSpec s.subTasks rest

/-- Specification-side resolver for `getItemByPath`, written from the
spec's words: the first segment must carry the `deliverable` tag and
match an id in the deliverables list; every later segment matches an id
in the current node's sub-task list; the empty path and every failed
match give `none`. -/
def resolveItemSpec (ds : List Deliverable) : List PathItemPS → Option Item
  | [] => none
  | p :: rest =>
    if p.type == PType.deliverable then
      match ds.find? (fun d => d.id == p.id) with
      | none => none
      | some d => if rest = [] then some (Item.deliv d) else resolveItemSubSpec d.subTasks rest
    else none

theorem getItemByPathAux_eq_sub (ds : List Deliverable) (P : List PathItemPS)
    (hP : P ≠ []) : ∀ it : Item,
      getItemByPathAux ds (some it) false P = resolveItemSubSpec it.subTasks P := by
  induction P with
  | nil => exact absurd rfl hP
  | cons p rest ih =>
    intro it
    simp only [getItemByPathAux, resolveItemSubSpec, Bool.false_and, if_neg Bool.false_ne_true]
    cases h : (it.subTasks).find? (fun t => t.id == p.id) with
    | none => rfl
    | some s =>
      cases rest with
      | nil => simp [getItemByPathAux]
      | cons q rest2 => simpa using ih (by simp) (Item.sub s)

theorem getItemByPath_eq_resolveItemSpec (ds : List Deliverable)
    (P : List PathItemPS) : getItemByPath ds P = resolveItemSpec ds P := by
  cases P with
  | nil => rfl
  | cons p rest =>
    simp only [getItemByPath, getItemByPathAux, resolveItemSpec, Bool.true_and]
    cases hty : (p.type == PType.deliverable) with
    | false => simp [hty]
    | true =>
      simp only [hty, if_true]
      cases h : ds.find? (fun d => d.id == p.id) with
      | none => simp [h]
      | some d =>
        cases rest with
        | nil => simp [h, getItemByPathAux]
        | cons q rest2 =>
          have hsub := getItemByPathAux_eq_sub ds (q :: rest2) (by simp) (Item.deliv d)
          simp only [Item.subTasks] at hsub
          simp [h, hsub]

/-- C1: path resolution is total and never throws.  `getTaskByPath` (task
store) and `getItemByPath` (`projectStore.ts`) are pure total functions
into `Option`; each coincides with the straightforward segment-by-segment
descent (`resolveSpec`, `resolveItemSpec`), which returns `none` — a
normal value, not an exception — whenever a segment fails to match, and
both return `none` on the empty path. -/
theorem c1_path_resolution_total :
    (∀ ts : List Task, getTaskByPath ts [] = none) ∧
    (∀ (ts : List Task) (P : List PathItem), getTaskByPath ts P = resolveSpec ts P) ∧
    (∀ ds : List Deliverable, getItemByPath ds [] = none) ∧
    (∀ (ds : List Deliverable) (P : List PathItemPS),
      getItemByPath ds P = resolveItemSpec ds P) := by
  refine ⟨fun ts => rfl, fun ts P => ?_, fun ds => rfl, getItemByPath_eq_resolveItemSpec⟩
  cases P with
  | nil => rfl
  | cons p rest => exact getTaskByPathAux_eq_resolveSpec (p :: rest) (by simp) none ts

/-- JavaScript's `x || dflt` on a string that is present: the empty
string is falsy and is replaced by the default. -/
def jsOrStr (x dflt : String) : String := if x = "" then dflt else x

/-- JavaScript's `x || 0` on a number that is present: 0 is falsy. -/
def jsOrInt (x : Int) : Int := if x = 0 then 0 else x

/-- Payload of `addTask` (source type `Omit<Task, 'id' | 'children' | 'completed'>`). -/
structure TaskData where
  name : String
  description : String
  hours : Option Int
  costPerHour : Option Int
  assignedTo : Option (List UserRef)
  deadline : Option String
  projectId : Option String

/-- The `newTask` object built by `addTask`:
`{ ...taskData, id: crypto.randomUUID(), name: taskData.name || '',
description: taskData.description || '', completed: false, children: [] }`.
The generated UUID is the parameter `newId`. -/
def mkNewTask (d : TaskData) (newId : String) : Task :=
  .mk newId (jsOrStr d.name "") (jsOrStr d.description "") d.hours d.costPerHour
    d.assignedTo d.deadline false [] d.projectId

/-- Source `updateNestedTasks` (inner helper of `addTask`): on the empty
path append `newTask` to the current list; otherwise map over the list,
descending into the children of every task whose id equals the head
segment's id (`task.children || []` is the identity here, `children`
being total in the model). -/
def updateNestedTasks (newTask : Task) : List PathItem → List Task → List Task
  | [], ts => ts ++ [newTask]
  | p :: rest, ts =>
    ts.map fun t =>
      if t.id = p.id then t.withChildren (updateNestedTasks newTask rest t.children) else t

/-- Tree-level effect of source `addTask`:
`path.length === 0 ? [...project.tasks, newTask] : updateNestedTasks(project.tasks, path)`. -/
def addTaskModel (d : TaskData) (newId : String) (ts : List Task)
    (path : List PathItem) : List Task :=
  if path = [] then ts ++ [mkNewTask d newId] else updateNestedTasks (mkNewTask d newId) path ts

/-- The `Partial<Task>` patch record taken by `updateTask`: `none` means
the field is absent from the patch object. -/
structure PartialTask where
  id : Option String
  name : Option String
  description : Option String
  hours : Option Int
  costPerHour : Option Int
  assignedTo : Option (List UserRef)
  deadline : Option String
  completed : Option Bool
  children : Option (List Task)
  projectId : Option String

/-- The patch record `{ completed: b }` used by `toggleTaskCompletion`. -/
def onlyCompleted (b : Bool) : PartialTask :=
  ⟨none, none, none, none, none, none, none, some b, none, none⟩

/-- The patched node built by `updateNestedTask` when `task.id === taskId`:
`{ ...task, ...data, name: data.name || task.name,
description: data.description || task.description, children: task.children || [] }`.
A present patch field overrides via the spread; the trailing explicit
entries then force falsy-ignoring `name`/`description` and always restore
the pre-patch `children`. -/
def applyPatch (data : PartialTask) (t : Task) : Task :=
  .mk (data.id.getD t.id)
    (match data.name with | none => t.name | some s => jsOrStr s t.name)
    (match data.description with | none => t.description | some s => jsOrStr s t.description)
    (match data.hours with | none => t.hours | some v => some v)
    (match data.costPerHour with | none => t.costPerHour | some v => some v)
    (match data.assignedTo with | none => t.assignedTo | some l => some l)
    (match data.deadline with | none => t.deadline | some s => some s)
    (data.completed.getD t.completed)
    t.children
    (match data.projectId with | none => t.projectId | some s => some s)

/-- Source `updateNestedTask` (inner helper of `updateTask`): patch every
task whose id equals `taskId` (without descending into its subtree);
otherwise recurse into children lists of positive length. -/
def updateNestedTask (data : PartialTask) (taskId : String) : List Task → List Task
  | [] => []
  | Task.mk i n d h c a dl cm ch pj :: ts =>
    (if i = taskId then applyPatch data (Task.mk i n d h c a dl cm ch pj)
     else if 0 < ch.length then Task.mk i n d h c a dl cm (updateNestedTask data taskId ch) pj
     else Task.mk i n d h c a dl cm ch pj) :: updateNestedTask data taskId ts

/-- Value-level effect of source `deleteNestedTask` (inner helper of
`deleteTask`): filter out every task whose id equals `taskId` at every
depth; a removed task's subtree is dropped without being visited; a kept
task with a non-empty children list gets the recursive result as its
children.  (The in-place nature of that `task.children = ...` assignment
is modelled separately on a heap, see `deleteNestedTaskH`.) -/
def deleteNestedTask (taskId : String) : List Task → List Task
  | [] => []
  | Task.mk i n d h c a dl cm ch pj :: ts =>
    if i = taskId then deleteNestedTask taskId ts
    else
      Task.mk i n d h c a dl cm
        (if 0 < ch.length then deleteNestedTask taskId ch else ch) pj
        :: deleteNestedTask taskId ts

/-- Does some task in the forest, at any depth, have the given id? -/
def tasksOccur (x : String) : List Task → Bool
  | [] => false
  | Task.mk i _ _ _ _ _ _ _ ch _ :: ts => i == x || tasksOccur x ch || tasksOccur x ts

/-- Persisted ("cleaned") task shape produced by `cleanTasks`: no field
can be `undefined`; `deadline` alone may still be the explicit `null`
(`none`), which the backing store accepts. -/
inductive CTask where
  | mk (id name description : String) (hours costPerHour : Int)
       (assignedTo : List UserRef) (deadline : Option String)
       (completed : Bool) (children : List CTask)

/-- Field accessor for `CTask.id`. -/
def CTask.id : CTask → String
  | .mk i _ _ _ _ _ _ _ _ => i

/-- Field accessor for `CTask.name`. -/
def CTask.name : CTask → String
  | .mk _ n _ _ _ _ _ _ _ => n

/-- Field accessor for `CTask.description`. -/
def CTask.description : CTask → String
  | .mk _ _ d _ _ _ _ _ _ => d

/-- Field accessor for `CTask.hours`. -/
def CTask.hours : CTask → Int
  | .mk _ _ _ h _ _ _ _ _ => h

/-- Field accessor for `CTask.costPerHour`. -/
def CTask.costPerHour : CTask → Int
  | .mk _ _ _ _ c _ _ _ _ => c

/-- Field accessor for `CTask.assignedTo`. -/
def CTask.assignedTo : CTask → List UserRef
  | .mk _ _ _ _ _ a _ _ _ => a

/-- Field accessor for `CTask.deadline`. -/
def CTask.deadline : CTask → Option String
  | .mk _ _ _ _ _ _ d _ _ => d

/-- Field accessor for `CTask.completed`. -/
def CTask.completed : CTask → Bool
  | .mk _ _ _ _ _ _ _ c _ => c

/-- Field accessor for `CTask.children`. -/
def CTask.children : CTask → List CTask
  | .mk _ _ _ _ _ _ _ _ c => c

/-- Source `cleanTasks` (inner helper of `updateProject`): recursively
normalize every task for persistence with JavaScript falsy defaulting:
`name || ''`, `description || ''`, `hours || 0`, `costPerHour || 0`,
`assignedTo?.map(u => ({id, fullName, email})) || []`, `deadline || null`,
`Boolean(completed)`, `children ? cleanTasks(children) : []`. -/
def cleanTasks : List Task → List CTask
  | [] => []
  | Task.mk i n d h c a dl cm ch _ :: ts =>
    CTask.mk i (jsOrStr n "") (jsOrStr d "")
      (match h with | none => 0 | some v => jsOrInt v)
      (match c with | none => 0 | some v => jsOrInt v)
      (match a with | none => [] | some l => l.map fun u => UserRef.mk u.id u.fullName u.email)
      (match dl with | none => none | some s => if s = "" then none else some s)
      cm (cleanTasks ch) :: cleanTasks ts

/-- Is the task assigned to the given user
(`task.assignedTo?.some(user => user.id === currentUser.uid)`, where an
absent assignment list is falsy)? -/
def isAssignedB (uid : String) (t : Task) : Bool :=
  match t.assignedTo with
  | none => false
  | some l => l.any fun u => u.id == uid

/-- The annotation `{ ...task, projectId }` made by `findUserTasks`. -/
def Task.setProjectId : Task → String → Task
  | .mk i n d h c a dl cm ch _, pid => .mk i n d h c a dl cm ch (some pid)

/-- Accumulator form of source `findUserTasks`: the `reduce` over a task
list, where `acc.push({ ...task, projectId })` happens for an assigned
task before the (independently computed) results for its descendants are
appended, and the tail of the list continues with the grown accumulator. -/
def findUserTasksAux (uid pid : String) : List Task → List Task → List Task
  | acc, [] => acc
  | acc, Task.mk i n d h c a dl cm ch pj :: ts =>
    let t := Task.mk i n d h c a dl cm ch pj
    let childTasks := findUserTasksAux uid pid [] ch
    let acc2 := if isAssignedB uid t then acc ++ [t.setProjectId pid] else acc
    findUserTasksAux uid pid (acc2 ++ childTasks) ts

/-- A project document as assembled by `fetchUserTasks` from the store
snapshot: `{ ...doc.data(), id: doc.id, tasks: doc.data().tasks || [] }`. -/
structure FetchedProject where
  id : String
  tasks : List Task

/-- Source `fetchUserTasks` reduced to its pure part: the outer `reduce`
over the fetched projects, concatenating `findUserTasks(project.tasks,
project.id)` in project order. -/
def fetchUserTasksAux (uid : String) : List Task → List FetchedProject → List Task
  | acc, [] => acc
  | acc, p :: ps => fetchUserTasksAux uid (acc ++ findUserTasksAux uid p.id [] p.tasks) ps

/-- The `userTasks` list computed by `fetchUserTasks` for the signed-in
user over the fetched projects. -/
def fetchUserTasksModel (uid : String) (ps : List FetchedProject) : List Task :=
  fetchUserTasksAux uid [] ps

/-- Specification-side aggregator, written from the spec's words: collect,
in depth-first preorder (parent before its children, siblings and
projects in order), every node whose assignment list contains the user,
annotated with the owning project id. -/
def specCollect (uid pid : String) : List Task → List Task
  | [] => []
  | Task.mk i n d h c a dl cm ch pj :: ts =>
    let t := Task.mk i n d h c a dl cm ch pj
    (if isAssignedB uid t then [t.setProjectId pid] else [])
      ++ specCollect uid pid ch ++ specCollect uid pid ts

/-- The `Partial<SubTask>` patch record taken by `updateSubTask`: `none`
means the field is absent from the patch object. -/
structure PartialSubTask where
  id : Option String
  name : Option String
  description : Option String
  assignedTo : Option UserRef
  deadline : Option String
  completed : Option Bool
  subTasks : Option (List SubTask)

/-- The patch record `{ completed: b }` for the sub-task store. -/
def onlyCompletedS (b : Bool) : PartialSubTask :=
  ⟨none, none, none, none, none, some b, none⟩

/-- The merged node `{ ...item, ...data }` built by `updateTaskInItem`
for a sub-task: every field present in the patch overrides. -/
def mergeSub (data : PartialSubTask) (s : SubTask) : SubTask :=
  .mk (data.id.getD s.id) (data.name.getD s.name)
    (match data.description with | none => s.description | some v => some v)
    (match data.assignedTo with | none => s.assignedTo | some v => some v)
    (match data.deadline with | none => s.deadline | some v => some v)
    (data.completed.getD s.completed)
    (data.subTasks.getD s.subTasks)

/-- The merged node `{ ...item, ...data }` for a deliverable: the same
generic spread applied at the top level of the union. -/
def mergeDeliv (data : PartialSubTask) (d : Deliverable) : Deliverable :=
  { d with
    id := data.id.getD d.id
    name := data.name.getD d.name
    description := match data.description with | none => d.description | some v => v
    assignedTo := match data.assignedTo with | none => d.assignedTo | some v => some v
    deadline := match data.deadline with | none => d.deadline | some v => some v
    completed := data.completed.getD d.completed
    subTasks := data.subTasks.getD d.subTasks }

/-- Source `updateTaskInItem` (inner helper of `updateSubTask`) on a
sub-task list: merge the patch into every item whose id equals `taskId`;
otherwise recurse into `subTasks` lists of positive length. -/
def updateTaskInItemS (data : PartialSubTask) (taskId : String) : List SubTask → List SubTask
  | [] => []
  | SubTask.mk i n d a dl c ss :: rest =>
    (if i = taskId then mergeSub data (SubTask.mk i n d a dl c ss)
     else if 0 < ss.length then SubTask.mk i n d a dl c (updateTaskInItemS data taskId ss)
     else SubTask.mk i n d a dl c ss) :: updateTaskInItemS data taskId rest

/-- Source `updateTaskInItem` at the top (deliverables) level of the
union `(Deliverable | SubTask)[]`. -/
def updateTaskInItemD (data : PartialSubTask) (taskId : String)
    (ds : List Deliverable) : List Deliverable :=
  ds.map fun d =>
    if d.id = taskId then mergeDeliv data d
    else if 0 < d.subTasks.length then
      { d with subTasks := updateTaskInItemS data taskId d.subTasks }
    else d

mutual

/-- Source `deleteTaskFromItem` (inner helper of `deleteSubTask`) on a
sub-task list: every item is kept; only its `subTasks` list is filtered. -/
def deleteTaskFromItemS (taskId : String) : List SubTask → List SubTask
  | [] => []
  | SubTask.mk i n d a dl c ss :: rest =>
    SubTask.mk i n d a dl c (deleteTaskFromItemInner taskId ss)
      :: deleteTaskFromItemS taskId rest

/-- The step `item.subTasks.filter(t => t.id !== taskId).map(t =>
({ ...t, subTasks: deleteTaskFromItem(t.subTasks) }))` of
`deleteTaskFromItem`. -/
def deleteTaskFromItemInner (taskId : String) : List SubTask → List SubTask
  | [] => []
  | SubTask.mk i n d a dl c ss :: rest =>
    if i = taskId then deleteTaskFromItemInner taskId rest
    else
      SubTask.mk i n d a dl c (deleteTaskFromItemS taskId ss)
        :: deleteTaskFromItemInner taskId rest

end

/-- Source `deleteTaskFromItem` at the top (deliverables) level: the
deliverables themselves are never filtered; each gets its sub-task list
processed. -/
def deleteTaskFromItemD (taskId : String) (ds : List Deliverable) : List Deliverable :=
  ds.map fun d => { d with subTasks := deleteTaskFromItemInner taskId d.subTasks }

/-- Does some sub-task in the forest, at any depth, have the given id? -/
def subsOccur (x : String) : List SubTask → Bool
  | [] => false
  | SubTask.mk i _ _ _ _ _ ss :: rest => i == x || subsOccur x ss || subsOccur x rest

/-- Node record for the heap model of `deleteNestedTask`: identical to
`Task` except that `children` holds heap addresses of the child nodes.
JavaScript objects live on a heap and `Array.prototype.filter` keeps
object references, so the statement `task.children =
deleteNestedTask(task.children)` is a store to the `children` slot of a
node that also belongs to the input tree. -/
structure NodeH where
  id : String
  name : String
  description : String
  hours : Option Int
  costPerHour : Option Int
  assignedTo : Option (List UserRef)
  deadline : Option String
  completed : Bool
  children : List Nat
  projectId : Option String

/-- Heap-level `deleteNestedTask`.  The first argument is recursion fuel:
the source recurses on the object graph, and on the acyclic graphs the
store builds any fuel at least the number of nodes is enough, so the
fuel-exhausted case is never reached there.  For each address the node is
read from the current heap; a node whose id matches is dropped (its
subtree is not visited); otherwise, when its children list is non-empty,
the recursive result is assigned in place to its `children` slot before
the rest of the list is processed against the updated heap. -/
def deleteNestedTaskH (taskId : String) :
    Nat → (Nat → NodeH) → List Nat → List Nat × (Nat → NodeH)
  | 0, h, as => (as, h)
  | _ + 1, h, [] => ([], h)
  | fuel + 1, h, a :: as =>
    let n := h a
    if n.id = taskId then deleteNestedTaskH taskId fuel h as
    else
      let h2 : Nat → NodeH :=
        if 0 < n.children.length then
          let r := deleteNestedTaskH taskId fuel h n.children
          fun x => if x = a then { r.2 a with children := r.1 } else r.2 x
        else h
      let rest := deleteNestedTaskH taskId fuel h2 as
      (a :: rest.1, rest.2)

/-- Heap node `a` of the mutation example: id `"a"`, one child at
address 1. -/
def nodeA : NodeH := ⟨"a", "A", "", none, none, none, none, false, [1], none⟩

/-- Heap node `b` of the mutation example: id `"b"`, no children. -/
def nodeB : NodeH := ⟨"b", "B", "", none, none, none, none, false, [], none⟩

/-- Example heap: the tree `[{id:"a", children:[{id:"b"}]}]` laid out at
addresses 0 (node `a`) and 1 (node `b`). -/
def heapEx : Nat → NodeH := fun a => if a = 0 then nodeA else nodeB

theorem Task.withChildren_id (t : Task) (cs : List Task) : (t.withChildren cs).id = t.id := by
  cases t; rfl

theorem Task.withChildren_children (t : Task) (cs : List Task) :
    (t.withChildren cs).children = cs := by
  cases t; rfl

theorem jsOrStr_empty_default (x : String) : jsOrStr x "" = x := by
  by_cases h : x = "" <;> simp [jsOrStr, h]

theorem jsOrInt_self (x : Int) : jsOrInt x = x := by
  by_cases h : x = 0 <;> simp [jsOrInt, h]

theorem tasksOccur_cons (i n d : String) (h c : Option Int)
    (a : Option (List UserRef)) (dl : Option String) (cm : Bool)
    (ch : List Task) (pj : Option String) (x : String) (ts : List Task) :
    tasksOccur x (Task.mk i n d h c a dl cm ch pj :: ts)
      = (i == x || tasksOccur x ch || tasksOccur x ts) := by
  simp [tasksOccur]

theorem resolveSpec_eq_match (ts : List Task) (p : PathItem) (rest : List PathItem) :
    resolveSpec ts (p :: rest)
      = match ts.find? (fun t => t.id == p.id) with
        | none => none
        | some t => if rest = [] then some t else resolveSpec t.children rest := rfl

theorem resolveSpec_find_some (ts : List Task) (p : PathItem) (rest : List PathItem)
    (M : Task) (hfind : ts.find? (fun t => t.id == p.id) = some M) :
    resolveSpec ts (p :: rest) = if rest = [] then some M else resolveSpec M.children rest := by
  rw [resolveSpec_eq_match, hfind]

theorem resolveSpec_find_none (ts : List Task) (p : PathItem) (rest : List PathItem)
    (hfind : ts.find? (fun t => t.id == p.id) = none) :
    resolveSpec ts (p :: rest) = none := by
  rw [resolveSpec_eq_match, hfind]

theorem updateNestedTasks_nil (nt : Task) (ts : List Task) :
    updateNestedTasks nt [] ts = ts ++ [nt] := rfl

theorem updateNestedTasks_cons (nt : Task) (p : PathItem) (rest : List PathItem)
    (ts : List Task) :
    updateNestedTasks nt (p :: rest) ts
      = ts.map (fun t =>
          if t.id = p.id then t.withChildren (updateNestedTasks nt rest t.children) else t) := rfl

theorem find_map_id_preserving (f : Task → Task) (hf : ∀ t, (f t).id = t.id) (x : String) :
    ∀ ts : List Task,
      (ts.map f).find? (fun t => t.id == x) = (ts.find? (fun t => t.id == x)).map f := by
  intro ts
  induction ts with
  | nil => rfl
  | cons t ts ih =>
    simp only [List.map_cons, List.find?]
    rw [hf t]
    cases h : (t.id == x) with
    | false => simpa using ih
    | true => rfl

theorem find_eq_none_of_not_occur (x : String) :
    ∀ ts : List Task, tasksOccur x ts = false → ts.find? (fun t => t.id == x) = none
  | [], _ => rfl
  | Task.mk i n d h c a dl cm ch pj :: ts, hocc => by
    simp only [tasksOccur_cons, Bool.or_eq_false_iff] at hocc
    simp only [List.find?, Task.id]
    rw [hocc.1.1]
    exact find_eq_none_of_not_occur x ts hocc.2

theorem find_not_occur (x p : String) :
    ∀ (ts : List Task) (N : Task), ts.find? (fun t => t.id == p) = some N →
      tasksOccur x ts = false → (N.id == x) = false ∧ tasksOccur x N.children = false
  | [], N, hfind, _ => by simp [List.find?] at hfind
  | Task.mk i n d h c a dl cm ch pj :: ts, N, hfind, hocc => by
    simp only [tasksOccur_cons, Bool.or_eq_false_iff] at hocc
    simp only [List.find?, Task.id] at hfind
    cases hh : (i == p) with
    | true =>
      rw [hh] at hfind
      simp only at hfind
      cases hfind
      exact ⟨hocc.1.1, hocc.1.2⟩
    | false =>
      rw [hh] at hfind
      simp only at hfind
      exact find_not_occur x p ts N hfind hocc.2

theorem find_append_right_of_not_occur (x : String) (nt : Task) (hid : nt.id = x) :
    ∀ ts : List Task, tasksOccur x ts = false →
      (ts ++ [nt]).find? (fun t => t.id == x) = some nt
  | [], _ => by simp [List.find?, hid]
  | Task.mk i n d h c a dl cm ch pj :: ts, hocc => by
    simp only [tasksOccur_cons, Bool.or_eq_false_iff] at hocc
    simp only [List.cons_append, List.find?, Task.id]
    rw [hocc.1.1]
    exact find_append_right_of_not_occur x nt hid ts hocc.2

theorem find_map_insert (nt : Task) (rest : List PathItem) (p : PathItem) (x : String)
    (ts : List Task) :
    (ts.map (fun t =>
        if t.id = p.id then t.withChildren (updateNestedTasks nt rest t.children) else t)).find?
        (fun t => t.id == x)
      = (ts.find? (fun t => t.id == x)).map
          (fun t =>
            if t.id = p.id then t.withChildren (updateNestedTasks nt rest t.children) else t) :=
  find_map_id_preserving _
    (fun t => by by_cases h : t.id = p.id <;> simp [h, Task.withChildren_id]) x ts

theorem updateNestedTasks_resolve (nt : Task) :
    ∀ (P : List PathItem) (ts : List Task) (N : Task),
      resolveSpec ts P = some N → tasksOccur nt.id ts = false →
      resolveSpec (updateNestedTasks nt P ts) P
          = some (N.withChildren (N.children ++ [nt])) ∧
      resolveSpec (updateNestedTasks nt P ts) (P ++ [⟨nt.id⟩]) = some nt := by
  intro P
  induction P with
  | nil => intro ts N hres _; exact absurd hres (by simp [resolveSpec])
  | cons p rest ih =>
    intro ts N hres hocc
    cases hfind : ts.find? (fun t => t.id == p.id) with
    | none =>
      rw [resolveSpec_find_none ts p rest hfind] at hres
      exact absurd hres (by simp)
    | some M =>
      rw [resolveSpec_find_some ts p rest M hfind] at hres
      have hM : M.id = p.id := by simpa using List.find?_some hfind
      have hMocc := find_not_occur nt.id p.id ts M hfind hocc
      have hfindmap : (updateNestedTasks nt (p :: rest) ts).find? (fun t => t.id == p.id)
          = some (M.withChildren (updateNestedTasks nt rest M.children)) := by
        rw [updateNestedTasks_cons, find_map_insert nt rest p p.id ts, hfind,
          Option.map_some', if_pos hM]
      cases rest with
      | nil =>
        rw [if_pos rfl] at hres
        have hMN : M = N := by simpa using hres
        subst hMN
        refine ⟨?_, ?_⟩
        · rw [resolveSpec_find_some _ p [] _ hfindmap]
          simp [updateNestedTasks_nil]
        · show resolveSpec (updateNestedTasks nt [p] ts) (p :: [⟨nt.id⟩]) = some nt
          rw [resolveSpec_find_some _ p [⟨nt.id⟩] _ hfindmap, if_neg (by simp),
            Task.withChildren_children, updateNestedTasks_nil]
          rw [resolveSpec_find_some (M.children ++ [nt]) ⟨nt.id⟩ [] nt
            (find_append_right_of_not_occur nt.id nt rfl M.children hMocc.2)]
          simp
      | cons q rest2 =>
        rw [if_neg (by simp)] at hres
        have hih := ih M.children N hres hMocc.2
        refine ⟨?_, ?_⟩
        · rw [resolveSpec_find_some _ p (q :: rest2) _ hfindmap, if_neg (by simp),
            Task.withChildren_children]
          exact hih.1
        · have hstep := resolveSpec_find_some (updateNestedTasks nt (p :: q :: rest2) ts) p
            (q :: (rest2 ++ [⟨nt.id⟩]))
            (M.withChildren (updateNestedTasks nt (q :: rest2) M.children)) hfindmap
          rw [if_neg (by simp), Task.withChildren_children] at hstep
          exact hstep.trans hih.2

/-- Do two paths diverge: after some common prefix of equal segment ids,
the next segments carry different ids?  A path addressing a sibling
branch diverges from the edited path. -/
def divergesB : List PathItem → List PathItem → Bool
  | p :: ps, q :: qs => (p.id != q.id) || (p.id == q.id && divergesB ps qs)
  | _, _ => false

theorem insert_frame_diverge (nt : Task) :
    ∀ (Q P : List PathItem) (ts : List Task), divergesB P Q = true →
      resolveSpec (updateNestedTasks nt P ts) Q = resolveSpec ts Q := by
  intro Q
  induction Q with
  | nil =>
    intro P ts hdiv
    cases P with
    | nil => simp [divergesB] at hdiv
    | cons p ps => simp [divergesB] at hdiv
  | cons q qs ih =>
    intro P ts hdiv
    cases P with
    | nil => simp [divergesB] at hdiv
    | cons p ps =>
      rw [updateNestedTasks_cons]
      cases hfind : ts.find? (fun t => t.id == q.id) with
      | none =>
        have hmapped : (ts.map (fun t =>
            if t.id = p.id then t.withChildren (updateNestedTasks nt ps t.children) else t)).find?
            (fun t => t.id == q.id) = none := by
          rw [find_map_insert nt ps p q.id ts, hfind]; rfl
        rw [resolveSpec_find_none _ q qs hmapped, resolveSpec_find_none ts q qs hfind]
      | some M =>
        have hMq : M.id = q.id := by simpa using List.find?_some hfind
        simp only [divergesB, Bool.or_eq_true, Bool.and_eq_true, bne_iff_ne, beq_iff_eq] at hdiv
        rcases hdiv with hne | ⟨heq, hdiv2⟩
        · have hfM : (ts.map (fun t =>
              if t.id = p.id then t.withChildren (updateNestedTasks nt ps t.children) else t)).find?
              (fun t => t.id == q.id) = some M := by
            rw [find_map_insert nt ps p q.id ts, hfind, Option.map_some',
              if_neg (by rw [hMq]; exact fun hc => hne hc.symm)]
          rw [resolveSpec_find_some _ q qs M hfM, resolveSpec_find_some ts q qs M hfind]
        · have hfM : (ts.map (fun t =>
              if t.id = p.id then t.withChildren (updateNestedTasks nt ps t.children) else t)).find?
              (fun t => t.id == q.id)
              = some (M.withChildren (updateNestedTasks nt ps M.children)) := by
            rw [find_map_insert nt ps p q.id ts, hfind, Option.map_some',
              if_pos (by rw [hMq]; exact heq.symm)]
          cases qs with
          | nil => exact absurd hdiv2 (by cases ps <;> simp [divergesB])
          | cons r rs =>
            rw [resolveSpec_find_some _ q (r :: rs) _ hfM, if_neg (by simp),
              Task.withChildren_children, resolveSpec_find_some ts q (r :: rs) M hfind,
              if_neg (by simp)]
            exact ih ps M.children hdiv2

theorem updateNestedTask_not_occur (data : PartialTask) (x : String) :
    ∀ ts : List Task, tasksOccur x ts = false → updateNestedTask data x ts = ts
  | [], _ => by simp [updateNestedTask]
  | Task.mk i n d h c a dl cm ch pj :: ts, hocc => by
    rw [tasksOccur_cons] at hocc
    simp only [Bool.or_eq_false_iff] at hocc
    have h1 : ¬ i = x := by simpa using hocc.1.1
    simp only [updateNestedTask]
    rw [if_neg h1, updateNestedTask_not_occur data x ts hocc.2]
    by_cases hch : 0 < ch.length
    · rw [if_pos hch, updateNestedTask_not_occur data x ch hocc.1.2]
    · rw [if_neg hch]

theorem deleteNestedTask_not_occur (x : String) :
    ∀ ts : List Task, tasksOccur x ts = false → deleteNestedTask x ts = ts
  | [], _ => by simp [deleteNestedTask]
  | Task.mk i n d h c a dl cm ch pj :: ts, hocc => by
    rw [tasksOccur_cons] at hocc
    simp only [Bool.or_eq_false_iff] at hocc
    have h1 : ¬ i = x := by simpa using hocc.1.1
    simp only [deleteNestedTask]
    rw [if_neg h1, deleteNestedTask_not_occur x ts hocc.2]
    by_cases hch : 0 < ch.length
    · rw [if_pos hch, deleteNestedTask_not_occur x ch hocc.1.2]
    · rw [if_neg hch]

theorem subsOccur_cons (i n : String) (d : Option String) (a : Option UserRef)
    (dl : Option String) (c : Bool) (ss : List SubTask) (x : String)
    (rest : List SubTask) :
    subsOccur x (SubTask.mk i n d a dl c ss :: rest)
      = (i == x || subsOccur x ss || subsOccur x rest) := by
  simp [subsOccur]

mutual

theorem deleteTaskFromItemS_not_occur (x : String) :
    ∀ ss : List SubTask, subsOccur x ss = false → deleteTaskFromItemS x ss = ss
  | [], _ => by simp [deleteTaskFromItemS]
  | SubTask.mk i n d a dl c ss :: rest, hocc => by
    rw [subsOccur_cons] at hocc
    simp only [Bool.or_eq_false_iff] at hocc
    simp only [deleteTaskFromItemS]
    rw [deleteTaskFromItemInner_not_occur x ss hocc.1.2,
      deleteTaskFromItemS_not_occur x rest hocc.2]

theorem deleteTaskFromItemInner_not_occur (x : String) :
    ∀ ss : List SubTask, subsOccur x ss = false → deleteTaskFromItemInner x ss = ss
  | [], _ => by simp [deleteTaskFromItemInner]
  | SubTask.mk i n d a dl c ss :: rest, hocc => by
    rw [subsOccur_cons] at hocc
    simp only [Bool.or_eq_false_iff] at hocc
    have h1 : ¬ i = x := by simpa using hocc.1.1
    simp only [deleteTaskFromItemInner]
    rw [if_neg h1, deleteTaskFromItemS_not_occur x ss hocc.1.2,
      deleteTaskFromItemInner_not_occur x rest hocc.2]

end

/-- Does the id occur in any deliverable's sub-task tree? -/
def delivsOccur (x : String) : List Deliverable → Bool
  | [] => false
  | d :: ds => subsOccur x d.subTasks || delivsOccur x ds

theorem deleteTaskFromItemD_not_occur (x : String) :
    ∀ ds : List Deliverable, delivsOccur x ds = false → deleteTaskFromItemD x ds = ds := by
  intro ds
  induction ds with
  | nil => intro _; rfl
  | cons d ds ih =>
    intro hocc
    simp only [delivsOccur, Bool.or_eq_false_iff] at hocc
    have ihds := ih hocc.2
    simp only [deleteTaskFromItemD, List.map_cons] at ihds ⊢
    rw [ihds, deleteTaskFromItemInner_not_occur x d.subTasks hocc.1]

/-- Example leaf task `{id:"b"}`. -/
def taskB : Task := Task.mk "b" "B" "" none none none none false [] none

/-- Example root task `{id:"a", children:[{id:"b"}]}`. -/
def taskA : Task := Task.mk "a" "A" "" none none none none false [taskB] none

/-- Example forest `[{id:"a", children:[{id:"b"}]}]`. -/
def exForest : List Task := [taskA]

/-- Example sub-task `{id:"sb"}` for the deliverable store. -/
def subB : SubTask := SubTask.mk "sb" "SB" none none none false []

/-- Example deliverable `{id:"da", subTasks:[{id:"sb"}]}`. -/
def delivA : Deliverable := ⟨"da", "DA", "", none, none, none, none, false, [subB]⟩

/-- Example deliverables list for the deliverable store. -/
def exDelivs : List Deliverable := [delivA]

/-- C2 (amended): frame property of the tree mutators, value level.
A patch leaves every forest that does not contain the target id
unchanged; a delete leaves every single subtree that does not contain the
target id unchanged; and an insert along path `P` does not change the
resolution of any path `Q` that diverges from `P` into a sibling branch.
(The companion counterexample `c2_delete_mutates_input` shows that the
original claim's "never mutates its input" part fails for the source's
`deleteNestedTask`, which reassigns the `children` fields of retained
input nodes in place; `updateNestedTasks` and `updateNestedTask` build
their results purely from object spreads and do not write to the input.) -/
theorem c2_mutation_frame :
    (∀ (data : PartialTask) (x : String) (ts : List Task),
      tasksOccur x ts = false → updateNestedTask data x ts = ts) ∧
    (∀ (x : String) (t : Task), tasksOccur x [t] = false → deleteNestedTask x [t] = [t]) ∧
    (∀ (nt : Task) (P Q : List PathItem) (ts : List Task), divergesB P Q = true →
      resolveSpec (updateNestedTasks nt P ts) Q = resolveSpec ts Q) :=
  ⟨updateNestedTask_not_occur,
   fun x t h => deleteNestedTask_not_occur x [t] h,
   fun nt P Q ts h => insert_frame_diverge nt Q P ts h⟩

/-- Witness for C2 at concrete inputs: patching and deleting the absent
id `"z"` leaves the example tree unchanged, and inserting under `"a"`
does not change resolution of the diverging path `["z"]`. -/
theorem c2_mutation_frame_witness :
    updateNestedTask (onlyCompleted true) "z" exForest = exForest ∧
    deleteNestedTask "z" [taskA] = [taskA] ∧
    resolveSpec (updateNestedTasks taskB [⟨"a"⟩] exForest) [⟨"z"⟩]
      = resolveSpec exForest [⟨"z"⟩] :=
  ⟨c2_mutation_frame.1 (onlyCompleted true) "z" exForest
     (by simp [exForest, taskA, taskB, tasksOccur]),
   c2_mutation_frame.2.1 "z" taskA (by simp [taskA, taskB, tasksOccur]),
   c2_mutation_frame.2.2 taskB [⟨"a"⟩] [⟨"z"⟩] exForest (by simp [divergesB])⟩

/-- C2 counterexample: running the heap-level delete on the tree
`[{id:"a", children:[{id:"b"}]}]` (root object at address 0, child at
address 1) to delete `"b"` leaves the node at address 0 — the root object
of the INPUT tree — with children `[]` instead of `[1]`: `deleteNestedTask`
mutated its input tree in place, refuting "it never mutates the input
tree" as stated for every tree-mutation operation. -/
theorem c2_delete_mutates_input :
    ((deleteNestedTaskH "b" 4 heapEx [0]).2 0).children = [] ∧
    (heapEx 0).children = [1] ∧
    (deleteNestedTaskH "b" 4 heapEx [0]).1 = [0] := ⟨rfl, rfl, rfl⟩

/-- C6: delete is idempotent on absence.  If the id occurs nowhere in the
forest, `deleteNestedTask` (task store) returns a forest equal to its
input, and `deleteTaskFromItem` (`projectStore.ts`, at the deliverables
level) does likewise; both are total functions of the tree, so no error
is raised for "already gone". -/
theorem c6_delete_idempotent_on_absence :
    (∀ (taskId : String) (ts : List Task),
      tasksOccur taskId ts = false → deleteNestedTask taskId ts = ts) ∧
    (∀ (taskId : String) (ds : List Deliverable),
      delivsOccur taskId ds = false → deleteTaskFromItemD taskId ds = ds) :=
  ⟨deleteNestedTask_not_occur, deleteTaskFromItemD_not_occur⟩

/-- Witness for C6 at a concrete input: deleting the absent id `"z"` from
the example trees of both stores returns them unchanged. -/
theorem c6_delete_idempotent_witness :
    deleteNestedTask "z" exForest = exForest ∧
    deleteTaskFromItemD "z" exDelivs = exDelivs :=
  ⟨c6_delete_idempotent_on_absence.1 "z" exForest
     (by simp [exForest, taskA, taskB, tasksOccur]),
   c6_delete_idempotent_on_absence.2 "z" exDelivs
     (by simp [exDelivs, delivA, subB, delivsOccur, subsOccur])⟩

/-- Colliding-id node in the left branch. -/
def dupLeft : Task := Task.mk "dup" "left" "" none none none none false [] none

/-- Colliding-id node in the right branch. -/
def dupRight : Task := Task.mk "dup" "right" "" none none none none false [] none

/-- Left branch `{id:"a", children:[{id:"dup"}]}`. -/
def branchA : Task := Task.mk "a" "A" "" none none none none false [dupLeft] none

/-- Right branch `{id:"c", children:[{id:"dup"}]}`. -/
def branchC : Task := Task.mk "c" "C" "" none none none none false [dupRight] none

/-- C3 (code behaviour at the failing input): branches `"a"` and `"c"`
each contain a node with the colliding id `"dup"`.  A delete issued with
path `[{id:"a"}]` reaches `deleteNestedTask`, which takes no path at all
and removes BOTH `"dup"` nodes — the node under branch `"c"` does not
survive, contradicting the claim that deletion is scoped to the supplied
path (a defect the spec itself flags in the source). -/
theorem c3_delete_ignores_path :
    deleteNestedTask "dup" [branchA, branchC]
      = [Task.mk "a" "A" "" none none none none false [] none,
         Task.mk "c" "C" "" none none none none false [] none] := by
  simp [deleteNestedTask, branchA, branchC, dupLeft, dupRight]

/-- Example single-node root list `[{id:"a"}]`. -/
def soloA : Task := Task.mk "a" "A" "" none none none none false [] none

/-- Insert payload named `"X"` for the failing-input theorem of C4. -/
def dataX : TaskData := ⟨"X", "", none, none, none, none, none⟩

/-- C4 (code behaviour at the failing input): the path `[{id:"z"}]` does
not resolve in the tree `[{id:"a"}]`, yet `addTask` neither raises a
"node not found" error nor creates structure: its tree transformer
silently returns the tree unchanged (the only error `addTask` can raise
is `Project not found`), contradicting the required explicit
`ValidationFailure`. -/
theorem c4_addTask_silently_noops :
    getTaskByPath [soloA] [⟨"z"⟩] = none ∧
    addTaskModel dataX "new-1" [soloA] [⟨"z"⟩] = [soloA] := by
  constructor
  · rfl
  · simp [addTaskModel, updateNestedTasks_cons, soloA, Task.id]

theorem getTaskByPath_eq_resolveSpec (ts : List Task) (P : List PathItem) :
    getTaskByPath ts P = resolveSpec ts P := by
  cases P with
  | nil => rfl
  | cons p rest => exact getTaskByPathAux_eq_resolveSpec (p :: rest) (by simp) none ts

/-- C5: insert-then-resolve round trip.  Assuming the freshly generated
id does not occur in the tree (the source draws it from
`crypto.randomUUID()`): the new node carries the supplied fields with
`completed = false` and an empty `children` list; inserting with the
empty path appends it to the root list, where the extended path `[newId]`
resolves to it; and for every path `P` that resolves to a node `N`, after
the insert the extended path `P ++ [newId]` resolves to the new node, and
`P` itself resolves to `N` with the new node appended at the END of its
children list. -/
theorem c5_insert_then_resolve (d : TaskData) (newId : String) (ts : List Task)
    (P : List PathItem) (hfresh : tasksOccur newId ts = false) :
    ((mkNewTask d newId).id = newId ∧ (mkNewTask d newId).completed = false ∧
      (mkNewTask d newId).children = [] ∧ (mkNewTask d newId).name = d.name ∧
      (mkNewTask d newId).description = d.description ∧
      (mkNewTask d newId).hours = d.hours ∧
      (mkNewTask d newId).costPerHour = d.costPerHour ∧
      (mkNewTask d newId).assignedTo = d.assignedTo ∧
      (mkNewTask d newId).deadline = d.deadline) ∧
    (P = [] →
      addTaskModel d newId ts P = ts ++ [mkNewTask d newId] ∧
      getTaskByPath (addTaskModel d newId ts P) [⟨newId⟩] = some (mkNewTask d newId)) ∧
    (∀ N : Task, resolveSpec ts P = some N →
      getTaskByPath (addTaskModel d newId ts P) (P ++ [⟨newId⟩])
          = some (mkNewTask d newId) ∧
      resolveSpec (addTaskModel d newId ts P) P
          = some (N.withChildren (N.children ++ [mkNewTask d newId]))) := by
  refine ⟨⟨rfl, rfl, rfl, jsOrStr_empty_default d.name, jsOrStr_empty_default d.description,
    rfl, rfl, rfl, rfl⟩, ?_, ?_⟩
  · intro hP
    subst hP
    have hmodel : addTaskModel d newId ts [] = ts ++ [mkNewTask d newId] := by
      simp [addTaskModel]
    refine ⟨hmodel, ?_⟩
    have hfound := find_append_right_of_not_occur newId (mkNewTask d newId) rfl ts hfresh
    rw [hmodel, getTaskByPath_eq_resolveSpec,
      resolveSpec_find_some (ts ++ [mkNewTask d newId]) ⟨newId⟩ [] (mkNewTask d newId) hfound]
    simp
  · intro N hres
    cases P with
    | nil => exact absurd hres (by simp [resolveSpec])
    | cons p ps =>
      have hmodel : addTaskModel d newId ts (p :: ps)
          = updateNestedTasks (mkNewTask d newId) (p :: ps) ts := by
        simp [addTaskModel]
      have hmain := updateNestedTasks_resolve (mkNewTask d newId) (p :: ps) ts N hres hfresh
      constructor
      · rw [hmodel, getTaskByPath_eq_resolveSpec]
        exact hmain.2
      · rw [hmodel]
        exact hmain.1

/-- Witness for C5 at a concrete input: inserting a node with fresh id
`"n1"` under the path `["a"]` of the example tree and then resolving
`["a","n1"]` returns the inserted node, while `["a"]` resolves to the old
node with the new node appended after `"b"`. -/
theorem c5_insert_then_resolve_witness :
    getTaskByPath (addTaskModel dataX "n1" exForest [⟨"a"⟩]) [⟨"a"⟩, ⟨"n1"⟩]
      = some (mkNewTask dataX "n1") ∧
    resolveSpec (addTaskModel dataX "n1" exForest [⟨"a"⟩]) [⟨"a"⟩]
      = some (taskA.withChildren (taskA.children ++ [mkNewTask dataX "n1"])) := by
  have h := c5_insert_then_resolve dataX "n1" exForest [⟨"a"⟩]
    (by simp [exForest, taskA, taskB, tasksOccur])
  have hres : resolveSpec exForest [⟨"a"⟩] = some taskA := rfl
  exact ⟨(h.2.2 taskA hres).1, (h.2.2 taskA hres).2⟩

/-- Claim-side description of a patch that only sets `completed`, for the
task store: a node whose id matches becomes the same node with
`completed` replaced by `b` (in particular `name`, `description` and
`children` are identical to before); every other node keeps all its
fields, with its children satisfying the relation recursively. -/
def PatchedOnlyCompleted (b : Bool) (taskId : String) : List Task → List Task → Prop
  | [], [] => True
  | Task.mk i n d h c a dl cm ch pj :: ts, u :: us =>
    (if i = taskId then u = Task.mk i n d h c a dl b ch pj
     else u.id = i ∧ u.name = n ∧ u.description = d ∧ u.hours = h ∧
       u.costPerHour = c ∧ u.assignedTo = a ∧ u.deadline = dl ∧
       u.completed = cm ∧ u.projectId = pj ∧ PatchedOnlyCompleted b taskId ch u.children)
    ∧ PatchedOnlyCompleted b taskId ts us
  | _, _ => False

theorem applyPatch_onlyCompleted (b : Bool) (i n d : String) (h c : Option Int)
    (a : Option (List UserRef)) (dl : Option String) (cm : Bool) (ch : List Task)
    (pj : Option String) :
    applyPatch (onlyCompleted b) (Task.mk i n d h c a dl cm ch pj)
      = Task.mk i n d h c a dl b ch pj := rfl

theorem updateNestedTask_onlyCompleted (b : Bool) (taskId : String) :
    ∀ ts : List Task,
      PatchedOnlyCompleted b taskId ts (updateNestedTask (onlyCompleted b) taskId ts)
  | [] => by simp [updateNestedTask, PatchedOnlyCompleted]
  | Task.mk i n d h c a dl cm ch pj :: ts => by
    simp only [updateNestedTask]
    by_cases hid : i = taskId
    · rw [if_pos hid, applyPatch_onlyCompleted]
      simp only [PatchedOnlyCompleted, if_pos hid]
      exact ⟨by trivial, updateNestedTask_onlyCompleted b taskId ts⟩
    · rw [if_neg hid]
      by_cases hch : 0 < ch.length
      · rw [if_pos hch]
        simp only [PatchedOnlyCompleted, if_neg hid]
        exact ⟨⟨by trivial, by trivial, by trivial, by trivial, by trivial, by trivial,
          by trivial, by trivial, by trivial,
          updateNestedTask_onlyCompleted b taskId ch⟩,
          updateNestedTask_onlyCompleted b taskId ts⟩
      · rw [if_neg hch]
        have hnil : ch = [] := by
          cases ch with
          | nil => rfl
          | cons x xs => exact absurd (by simp) hch
        subst hnil
        simp only [PatchedOnlyCompleted, if_neg hid]
        refine ⟨⟨by trivial, by trivial, by trivial, by trivial, by trivial, by trivial,
          by trivial, by trivial, by trivial, ?_⟩,
          updateNestedTask_onlyCompleted b taskId ts⟩
        simp [PatchedOnlyCompleted, Task.children]

/-- Claim-side description of a patch that only sets `completed`, for the
sub-task lists of `projectStore.ts`. -/
def PatchedOnlyCompletedS (b : Bool) (taskId : String) : List SubTask → List SubTask → Prop
  | [], [] => True
  | SubTask.mk i n d a dl cm ss :: rest, u :: us =>
    (if i = taskId then u = SubTask.mk i n d a dl b ss
     else u.id = i ∧ u.name = n ∧ u.description = d ∧ u.assignedTo = a ∧
       u.deadline = dl ∧ u.completed = cm ∧ PatchedOnlyCompletedS b taskId ss u.subTasks)
    ∧ PatchedOnlyCompletedS b taskId rest us
  | _, _ => False

theorem mergeSub_onlyCompleted (b : Bool) (i n : String) (d : Option String)
    (a : Option UserRef) (dl : Option String) (cm : Bool) (ss : List SubTask) :
    mergeSub (onlyCompletedS b) (SubTask.mk i n d a dl cm ss)
      = SubTask.mk i n d a dl b ss := rfl

theorem updateTaskInItemS_onlyCompleted (b : Bool) (taskId : String) :
    ∀ ss : List SubTask,
      PatchedOnlyCompletedS b taskId ss (updateTaskInItemS (onlyCompletedS b) taskId ss)
  | [] => by simp [updateTaskInItemS, PatchedOnlyCompletedS]
  | SubTask.mk i n d a dl cm ss :: rest => by
    simp only [updateTaskInItemS]
    by_cases hid : i = taskId
    · rw [if_pos hid, mergeSub_onlyCompleted]
      simp only [PatchedOnlyCompletedS, if_pos hid]
      exact ⟨by trivial, updateTaskInItemS_onlyCompleted b taskId rest⟩
    · rw [if_neg hid]
      by_cases hss : 0 < ss.length
      · rw [if_pos hss]
        simp only [PatchedOnlyCompletedS, if_neg hid]
        exact ⟨⟨by trivial, by trivial, by trivial, by trivial, by trivial, by trivial,
          updateTaskInItemS_onlyCompleted b taskId ss⟩,
          updateTaskInItemS_onlyCompleted b taskId rest⟩
      · rw [if_neg hss]
        have hnil : ss = [] := by
          cases ss with
          | nil => rfl
          | cons x xs => exact absurd (by simp) hss
        subst hnil
        simp only [PatchedOnlyCompletedS, if_neg hid]
        refine ⟨⟨by trivial, by trivial, by trivial, by trivial, by trivial, by trivial, ?_⟩,
          updateTaskInItemS_onlyCompleted b taskId rest⟩
        simp [PatchedOnlyCompletedS, SubTask.subTasks]

/-- Claim-side description of a patch that only sets `completed`, at the
deliverables level of `projectStore.ts`. -/
def PatchedOnlyCompletedD (b : Bool) (taskId : String) :
    List Deliverable → List Deliverable → Prop
  | [], [] => True
  | d :: ds, u :: us =>
    (if d.id = taskId then u = { d with completed := b }
     else u.id = d.id ∧ u.name = d.name ∧ u.description = d.description ∧
       u.hours = d.hours ∧ u.costPerHour = d.costPerHour ∧ u.assignedTo = d.assignedTo ∧
       u.deadline = d.deadline ∧ u.completed = d.completed ∧
       PatchedOnlyCompletedS b taskId d.subTasks u.subTasks)
    ∧ PatchedOnlyCompletedD b taskId ds us
  | _, _ => False

theorem mergeDeliv_onlyCompleted (b : Bool) (d : Deliverable) :
    mergeDeliv (onlyCompletedS b) d = { d with completed := b } := rfl

theorem updateTaskInItemD_onlyCompleted (b : Bool) (taskId : String) :
    ∀ ds : List Deliverable,
      PatchedOnlyCompletedD b taskId ds (updateTaskInItemD (onlyCompletedS b) taskId ds) := by
  intro ds
  induction ds with
  | nil => simp [updateTaskInItemD, PatchedOnlyCompletedD]
  | cons d ds ih =>
    have ihm : PatchedOnlyCompletedD b taskId ds
        (ds.map fun d =>
          if d.id = taskId then mergeDeliv (onlyCompletedS b) d
          else if 0 < d.subTasks.length then
            { d with subTasks := updateTaskInItemS (onlyCompletedS b) taskId d.subTasks }
          else d) := ih
    simp only [updateTaskInItemD, List.map_cons]
    by_cases hid : d.id = taskId
    · rw [if_pos hid, mergeDeliv_onlyCompleted]
      simp only [PatchedOnlyCompletedD, if_pos hid]
      exact ⟨by trivial, ihm⟩
    · rw [if_neg hid]
      by_cases hss : 0 < d.subTasks.length
      · rw [if_pos hss]
        simp only [PatchedOnlyCompletedD, if_neg hid]
        exact ⟨⟨by trivial, by trivial, by trivial, by trivial, by trivial, by trivial,
          by trivial, by trivial,
          updateTaskInItemS_onlyCompleted b taskId d.subTasks⟩, ihm⟩
      · rw [if_neg hss]
        simp only [PatchedOnlyCompletedD, if_neg hid]
        refine ⟨⟨by trivial, by trivial, by trivial, by trivial, by trivial, by trivial,
          by trivial, by trivial, ?_⟩, ihm⟩
        have hnil : d.subTasks = [] := by
          cases hsub : d.subTasks with
          | nil => rfl
          | cons x xs => rw [hsub] at hss; exact absurd (by simp) hss
        rw [hnil]
        simp [PatchedOnlyCompletedS]

/-- C7: patching only `completed` preserves untouched fields.  In both
stores, a patch record carrying only the completed flag turns every node
with the target id into the same node with `completed` replaced — its
`name`, `description` and children list identical to before — and leaves
every other node's fields intact, descending only into children lists. -/
theorem c7_patch_preserves_untouched :
    (∀ (b : Bool) (taskId : String) (ts : List Task),
      PatchedOnlyCompleted b taskId ts (updateNestedTask (onlyCompleted b) taskId ts)) ∧
    (∀ (b : Bool) (taskId : String) (ss : List SubTask),
      PatchedOnlyCompletedS b taskId ss (updateTaskInItemS (onlyCompletedS b) taskId ss)) ∧
    (∀ (b : Bool) (taskId : String) (ds : List Deliverable),
      PatchedOnlyCompletedD b taskId ds (updateTaskInItemD (onlyCompletedS b) taskId ds)) :=
  ⟨updateNestedTask_onlyCompleted, updateTaskInItemS_onlyCompleted,
   updateTaskInItemD_onlyCompleted⟩

/-- Claim-side normalizer, written from the claim's listed substitutions:
only a missing (`undefined`) optional field is replaced by its default —
`hours`/`costPerHour` by 0, `assignedTo` by the empty list, `deadline` by
null — while a present value (including a present empty-string deadline)
is kept; `name`/`description`/`completed`/`children` are kept. -/
def cleanTasksSpec : List Task → List CTask
  | [] => []
  | Task.mk i n d h c a dl cm ch _ :: ts =>
    CTask.mk i n d (h.getD 0) (c.getD 0) (a.getD []) dl cm (cleanTasksSpec ch)
      :: cleanTasksSpec ts

/-- Amended claim-side normalizer: the default substitutions applied to
every JavaScript-falsy value, as the source's `||` does — in particular a
present empty-string `deadline` also becomes null.  (For `name`,
`description`, `hours`, `costPerHour` and `assignedTo`, falsy defaulting
coincides with keeping the present value.) -/
def cleanTasksAmended : List Task → List CTask
  | [] => []
  | Task.mk i n d h c a dl cm ch _ :: ts =>
    CTask.mk i n d (h.getD 0) (c.getD 0) (a.getD [])
      (match dl with | none => none | some s => if s = "" then none else some s)
      cm (cleanTasksAmended ch) :: cleanTasksAmended ts

/-- Re-reading a cleaned task from the store: every persisted field is
present, so the optional fields of `Task` come back as `some`; the
transient `projectId` is not persisted. -/
def toTasks : List CTask → List Task
  | [] => []
  | CTask.mk i n d h c a dl cm ch :: ts =>
    Task.mk i n d (some h) (some c) (some a) dl cm (toTasks ch) none :: toTasks ts

theorem userRef_map_id (l : List UserRef) :
    l.map (fun u => UserRef.mk u.id u.fullName u.email) = l := by
  induction l with
  | nil => rfl
  | cons u l ih => cases u; simp [ih]

theorem jsOrStr_idem (x : String) : jsOrStr (jsOrStr x "") "" = jsOrStr x "" := by
  by_cases hx : x = "" <;> simp [jsOrStr, hx]

theorem cleanTasks_nil : cleanTasks [] = [] := by
  rw [cleanTasks.eq_def]

theorem cleanTasks_cons (i n d : String) (h c : Option Int) (a : Option (List UserRef))
    (dl : Option String) (cm : Bool) (ch : List Task) (pj : Option String)
    (ts : List Task) :
    cleanTasks (Task.mk i n d h c a dl cm ch pj :: ts)
      = CTask.mk i (jsOrStr n "") (jsOrStr d "")
          (match h with | none => 0 | some v => jsOrInt v)
          (match c with | none => 0 | some v => jsOrInt v)
          (match a with
            | none => []
            | some l => l.map fun u => UserRef.mk u.id u.fullName u.email)
          (match dl with | none => none | some s => if s = "" then none else some s)
          cm (cleanTasks ch) :: cleanTasks ts := by
  rw [cleanTasks.eq_def]

theorem cleanTasksAmended_nil : cleanTasksAmended [] = [] := by
  rw [cleanTasksAmended.eq_def]

theorem cleanTasksAmended_cons (i n d : String) (h c : Option Int)
    (a : Option (List UserRef)) (dl : Option String) (cm : Bool) (ch : List Task)
    (pj : Option String) (ts : List Task) :
    cleanTasksAmended (Task.mk i n d h c a dl cm ch pj :: ts)
      = CTask.mk i n d (h.getD 0) (c.getD 0) (a.getD [])
          (match dl with | none => none | some s => if s = "" then none else some s)
          cm (cleanTasksAmended ch) :: cleanTasksAmended ts := by
  rw [cleanTasksAmended.eq_def]

theorem toTasks_nil : toTasks [] = [] := by
  rw [toTasks.eq_def]

theorem toTasks_cons (i n d : String) (h c : Int) (a : List UserRef)
    (dl : Option String) (cm : Bool) (ch : List CTask) (ts : List CTask) :
    toTasks (CTask.mk i n d h c a dl cm ch :: ts)
      = Task.mk i n d (some h) (some c) (some a) dl cm (toTasks ch) none :: toTasks ts := by
  rw [toTasks.eq_def]

theorem cleanTasksSpec_nil : cleanTasksSpec [] = [] := by
  rw [cleanTasksSpec.eq_def]

theorem cleanTasksSpec_cons (i n d : String) (h c : Option Int)
    (a : Option (List UserRef)) (dl : Option String) (cm : Bool) (ch : List Task)
    (pj : Option String) (ts : List Task) :
    cleanTasksSpec (Task.mk i n d h c a dl cm ch pj :: ts)
      = CTask.mk i n d (h.getD 0) (c.getD 0) (a.getD []) dl cm (cleanTasksSpec ch)
          :: cleanTasksSpec ts := by
  rw [cleanTasksSpec.eq_def]

theorem cleanTasks_eq_amended : ∀ ts : List Task, cleanTasks ts = cleanTasksAmended ts
  | [] => by rw [cleanTasks_nil, cleanTasksAmended_nil]
  | Task.mk i n d h c a dl cm ch pj :: ts => by
    rw [cleanTasks_cons, cleanTasksAmended_cons]
    rw [cleanTasks_eq_amended ch, cleanTasks_eq_amended ts,
      jsOrStr_empty_default n, jsOrStr_empty_default d]
    have hh : (match h with | none => (0 : Int) | some v => jsOrInt v) = h.getD 0 := by
      cases h <;> simp [jsOrInt_self]
    have hc : (match c with | none => (0 : Int) | some v => jsOrInt v) = c.getD 0 := by
      cases c <;> simp [jsOrInt_self]
    have ha : (match a with
        | none => ([] : List UserRef)
        | some l => l.map fun u => UserRef.mk u.id u.fullName u.email) = a.getD [] := by
      cases a <;> simp [userRef_map_id]
    rw [hh, hc, ha]

theorem cleanTasks_idempotent :
    ∀ ts : List Task, cleanTasks (toTasks (cleanTasks ts)) = cleanTasks ts
  | [] => by rw [cleanTasks_nil, toTasks_nil, cleanTasks_nil]
  | Task.mk i n d h c a dl cm ch pj :: ts => by
    rw [cleanTasks_cons, toTasks_cons, cleanTasks_cons]
    rw [cleanTasks_idempotent ch, cleanTasks_idempotent ts]
    congr 1
    simp only [CTask.mk.injEq]
    refine ⟨by trivial, jsOrStr_idem n, jsOrStr_idem d, ?_, ?_, ?_, ?_, by trivial, by trivial⟩
    · cases h with
      | none => simp [jsOrInt]
      | some v => simp [jsOrInt_self]
    · cases c with
      | none => simp [jsOrInt]
      | some v => simp [jsOrInt_self]
    · cases a with
      | none => simp
      | some l => exact userRef_map_id (l.map fun u => UserRef.mk u.id u.fullName u.email)
    · cases dl with
      | none => rfl
      | some s => by_cases hs : s = "" <;> simp [hs]

/-- Customer record of a project. -/
structure Customer where
  name : String
  phone : String
  address : String

/-- Payload of `updateProject` (source type
`Omit<Project, 'id' | '__id' | 'createdAt'>`); the source optional-chains
`projectData.customer?.`, so `customer` is modelled as optional. -/
structure ProjectData where
  name : String
  description : String
  customer : Option Customer
  tasks : List Task

/-- Cleaned project document written by `updateProject` (the constant
`type: 'project'` tag is omitted from the model). -/
structure CProject where
  name : String
  description : String
  customer : Customer
  tasks : List CTask

/-- Source `cleanProjectData` of `updateProject`: falsy-defaults the
strings (`projectData.name || ''`, `customer?.name || ''`, ...) and
cleans the task forest (`projectData.tasks || []` is the identity on a
present array, `tasks` being total in the model). -/
def cleanProjectData (pd : ProjectData) : CProject :=
  ⟨jsOrStr pd.name "", jsOrStr pd.description "",
   ⟨(match pd.customer with | none => "" | some c => jsOrStr c.name ""),
    (match pd.customer with | none => "" | some c => jsOrStr c.phone ""),
    (match pd.customer with | none => "" | some c => jsOrStr c.address "")⟩,
   cleanTasks pd.tasks⟩

/-- Task with a present empty-string deadline. -/
def taskEmptyDeadline : Task := Task.mk "t1" "T" "" none none none (some "") false [] none

/-- C8 counterexample: cleaning a task whose `deadline` is the present
empty string (a legitimate value of the optional `deadline?: string`
field) yields `deadline = null`, whereas the claim's listed substitutions
— which default only unset fields — keep `""`.  So the cleaned tree does
not equal the input tree modulo exactly the listed default
substitutions. -/
theorem c8_empty_deadline_counterexample :
    (cleanTasks [taskEmptyDeadline]).map CTask.deadline = [none] ∧
    (cleanTasksSpec [taskEmptyDeadline]).map CTask.deadline = [some ""] := by
  constructor
  · rw [show [taskEmptyDeadline]
        = [Task.mk "t1" "T" "" none none none (some "") false [] none] from rfl,
      show ([] : List Task) = [] from rfl]
    rw [cleanTasks_cons]
    simp [cleanTasks_nil, CTask.deadline]
  · rw [show [taskEmptyDeadline]
        = [Task.mk "t1" "T" "" none none none (some "") false [] none] from rfl]
    rw [cleanTasksSpec_cons]
    simp [cleanTasksSpec_nil, CTask.deadline]

/-- C8 (amended): persistence normalization.  `cleanTasks` equals the
normalizer that applies the listed default substitutions to every falsy
value (an empty-string deadline also becomes null); its output type
`CTask` is fully concrete — no field can be undefined, `deadline` being
the only nullable field; the project-level `cleanProjectData` cleans its
task forest the same way; and the normalization is idempotent: cleaning
the re-read image of a cleaned forest changes nothing. -/
theorem c8_normalization :
    (∀ ts : List Task, cleanTasks ts = cleanTasksAmended ts) ∧
    (∀ ts : List Task, cleanTasks (toTasks (cleanTasks ts)) = cleanTasks ts) ∧
    (∀ pd : ProjectData, (cleanProjectData pd).tasks = cleanTasksAmended pd.tasks) :=
  ⟨cleanTasks_eq_amended, cleanTasks_idempotent,
   fun pd => cleanTasks_eq_amended pd.tasks⟩

theorem findUserTasksAux_nil (uid pid : String) (acc : List Task) :
    findUserTasksAux uid pid acc [] = acc := by
  rw [findUserTasksAux.eq_def]

theorem findUserTasksAux_cons (uid pid : String) (acc : List Task) (i n d : String)
    (h c : Option Int) (a : Option (List UserRef)) (dl : Option String) (cm : Bool)
    (ch : List Task) (pj : Option String) (ts : List Task) :
    findUserTasksAux uid pid acc (Task.mk i n d h c a dl cm ch pj :: ts)
      = findUserTasksAux uid pid
          ((if isAssignedB uid (Task.mk i n d h c a dl cm ch pj)
            then acc ++ [(Task.mk i n d h c a dl cm ch pj).setProjectId pid] else acc)
            ++ findUserTasksAux uid pid [] ch) ts := by
  rw [findUserTasksAux.eq_def]

theorem specCollect_nil (uid pid : String) : specCollect uid pid [] = [] := by
  rw [specCollect.eq_def]

theorem specCollect_cons (uid pid : String) (i n d : String) (h c : Option Int)
    (a : Option (List UserRef)) (dl : Option String) (cm : Bool) (ch : List Task)
    (pj : Option String) (ts : List Task) :
    specCollect uid pid (Task.mk i n d h c a dl cm ch pj :: ts)
      = (if isAssignedB uid (Task.mk i n d h c a dl cm ch pj)
          then [(Task.mk i n d h c a dl cm ch pj).setProjectId pid] else [])
        ++ specCollect uid pid ch ++ specCollect uid pid ts := by
  rw [specCollect.eq_def]

theorem findUserTasksAux_eq_spec (uid pid : String) :
    ∀ (ts : List Task) (acc : List Task),
      findUserTasksAux uid pid acc ts = acc ++ specCollect uid pid ts
  | [], acc => by rw [findUserTasksAux_nil, specCollect_nil, List.append_nil]
  | Task.mk i n d h c a dl cm ch pj :: ts, acc => by
    rw [findUserTasksAux_cons, specCollect_cons]
    rw [findUserTasksAux_eq_spec uid pid ts _, findUserTasksAux_eq_spec uid pid ch []]
    by_cases hA : isAssignedB uid (Task.mk i n d h c a dl cm ch pj)
    · simp [hA, List.append_assoc]
    · simp [hA, List.append_assoc]

theorem isAssignedB_setProjectId (uid pid : String) (t : Task) :
    isAssignedB uid (t.setProjectId pid) = isAssignedB uid t := by
  cases t; rfl

theorem specCollect_all_assigned (uid pid : String) :
    ∀ ts : List Task, (specCollect uid pid ts).all (fun t => isAssignedB uid t) = true
  | [] => by rw [specCollect_nil]; rfl
  | Task.mk i n d h c a dl cm ch pj :: ts => by
    rw [specCollect_cons]
    simp only [List.all_append, Bool.and_eq_true]
    refine ⟨⟨?_, specCollect_all_assigned uid pid ch⟩, specCollect_all_assigned uid pid ts⟩
    by_cases hA : isAssignedB uid (Task.mk i n d h c a dl cm ch pj)
    · simp [hA, isAssignedB_setProjectId]
    · simp [hA]

/-- Specification-side aggregation over projects in list order. -/
def specAgg (uid : String) : List FetchedProject → List Task
  | [] => []
  | p :: ps => specCollect uid p.id p.tasks ++ specAgg uid ps

theorem fetchUserTasksAux_eq_spec (uid : String) :
    ∀ (ps : List FetchedProject) (acc : List Task),
      fetchUserTasksAux uid acc ps = acc ++ specAgg uid ps
  | [], acc => by simp [fetchUserTasksAux, specAgg]
  | p :: ps, acc => by
    simp only [fetchUserTasksAux, specAgg]
    rw [fetchUserTasksAux_eq_spec uid ps _, findUserTasksAux_eq_spec uid p.id p.tasks []]
    simp [List.append_assoc]

theorem fetchUserTasksModel_eq_spec (uid : String) (ps : List FetchedProject) :
    fetchUserTasksModel uid ps = specAgg uid ps := by
  have h := fetchUserTasksAux_eq_spec uid ps []
  simpa [fetchUserTasksModel] using h

theorem specAgg_all_assigned (uid : String) :
    ∀ ps : List FetchedProject, (specAgg uid ps).all (fun t => isAssignedB uid t) = true
  | [] => rfl
  | p :: ps => by
    simp only [specAgg, List.all_append, Bool.and_eq_true]
    exact ⟨specCollect_all_assigned uid p.id p.tasks, specAgg_all_assigned uid ps⟩

/-- C9: user-task aggregation.  `fetchUserTasks` returns exactly the
depth-first preorder collection (each parent before its children,
siblings and projects in list order) of the nodes whose assignment list
contains the user, each annotated with the owning project's id; every
returned node is assigned to the user, so no unassigned node appears. -/
theorem c9_user_task_aggregation :
    (∀ (uid : String) (ps : List FetchedProject),
      fetchUserTasksModel uid ps = specAgg uid ps) ∧
    (∀ (uid : String) (ps : List FetchedProject),
      (fetchUserTasksModel uid ps).all (fun t => isAssignedB uid t) = true) :=
  ⟨fetchUserTasksModel_eq_spec,
   fun uid ps => by rw [fetchUserTasksModel_eq_spec]; exact specAgg_all_assigned uid ps⟩

/-- The bare nesting shape of a forest, with all node fields erased. -/
inductive Shape where
  | node (children : List Shape)

/-- Nesting shape of a forest. -/
def shapeOf : List Task → List Shape
  | [] => []
  | Task.mk _ _ _ _ _ _ _ _ ch _ :: ts => Shape.node (shapeOf ch) :: shapeOf ts

/-- Preorder list of all names in a forest. -/
def namesOf : List Task → List String
  | [] => []
  | Task.mk _ n _ _ _ _ _ _ ch _ :: ts => n :: (namesOf ch ++ namesOf ts)

/-- Preorder list of all descriptions in a forest. -/
def descsOf : List Task → List String
  | [] => []
  | Task.mk _ _ d _ _ _ _ _ ch _ :: ts => d :: (descsOf ch ++ descsOf ts)

theorem shapeOf_nil : shapeOf [] = [] := by rw [shapeOf.eq_def]

theorem shapeOf_cons (i n d : String) (h c : Option Int) (a : Option (List UserRef))
    (dl : Option String) (cm : Bool) (ch : List Task) (pj : Option String)
    (ts : List Task) :
    shapeOf (Task.mk i n d h c a dl cm ch pj :: ts)
      = Shape.node (shapeOf ch) :: shapeOf ts := by
  rw [shapeOf.eq_def]

theorem namesOf_cons (i n d : String) (h c : Option Int) (a : Option (List UserRef))
    (dl : Option String) (cm : Bool) (ch : List Task) (pj : Option String)
    (ts : List Task) :
    namesOf (Task.mk i n d h c a dl cm ch pj :: ts)
      = n :: (namesOf ch ++ namesOf ts) := by
  rw [namesOf.eq_def]

theorem descsOf_cons (i n d : String) (h c : Option Int) (a : Option (List UserRef))
    (dl : Option String) (cm : Bool) (ch : List Task) (pj : Option String)
    (ts : List Task) :
    descsOf (Task.mk i n d h c a dl cm ch pj :: ts)
      = d :: (descsOf ch ++ descsOf ts) := by
  rw [descsOf.eq_def]

theorem applyPatch_mk (data : PartialTask) (i n d : String) (h c : Option Int)
    (a : Option (List UserRef)) (dl : Option String) (cm : Bool) (ch : List Task)
    (pj : Option String) :
    applyPatch data (Task.mk i n d h c a dl cm ch pj)
      = Task.mk (data.id.getD i)
          (match data.name with | none => n | some s => jsOrStr s n)
          (match data.description with | none => d | some s => jsOrStr s d)
          (match data.hours with | none => h | some v => some v)
          (match data.costPerHour with | none => c | some v => some v)
          (match data.assignedTo with | none => a | some l => some l)
          (match data.deadline with | none => dl | some s => some s)
          (data.completed.getD cm) ch
          (match data.projectId with | none => pj | some s => some s) := rfl

theorem applyPatch_children (data : PartialTask) (t : Task) :
    (applyPatch data t).children = t.children := by
  cases t; rfl

theorem applyPatch_name_empty (data : PartialTask) (t : Task) (hd : data.name = some "") :
    (applyPatch data t).name = t.name := by
  cases t
  rw [applyPatch_mk, hd]
  simp [Task.name, jsOrStr]

theorem applyPatch_description_empty (data : PartialTask) (t : Task)
    (hd : data.description = some "") :
    (applyPatch data t).description = t.description := by
  cases t
  rw [applyPatch_mk, hd]
  simp [Task.description, jsOrStr]

theorem shapeOf_updateNestedTask (data : PartialTask) (taskId : String) :
    ∀ ts : List Task, shapeOf (updateNestedTask data taskId ts) = shapeOf ts
  | [] => by simp [updateNestedTask]
  | Task.mk i n d h c a dl cm ch pj :: ts => by
    simp only [updateNestedTask]
    by_cases hid : i = taskId
    · rw [if_pos hid, applyPatch_mk, shapeOf_cons, shapeOf_cons,
        shapeOf_updateNestedTask data taskId ts]
    · rw [if_neg hid]
      by_cases hch : 0 < ch.length
      · rw [if_pos hch, shapeOf_cons, shapeOf_cons,
          shapeOf_updateNestedTask data taskId ch, shapeOf_updateNestedTask data taskId ts]
      · rw [if_neg hch, shapeOf_cons, shapeOf_cons, shapeOf_updateNestedTask data taskId ts]

theorem namesOf_updateNestedTask (data : PartialTask) (taskId : String)
    (hd : data.name = some "") :
    ∀ ts : List Task, namesOf (updateNestedTask data taskId ts) = namesOf ts
  | [] => by simp [updateNestedTask]
  | Task.mk i n d h c a dl cm ch pj :: ts => by
    simp only [updateNestedTask]
    by_cases hid : i = taskId
    · rw [if_pos hid, applyPatch_mk, hd, namesOf_cons, namesOf_cons,
        namesOf_updateNestedTask data taskId hd ts]
      simp [jsOrStr]
    · rw [if_neg hid]
      by_cases hch : 0 < ch.length
      · rw [if_pos hch, namesOf_cons, namesOf_cons,
          namesOf_updateNestedTask data taskId hd ch,
          namesOf_updateNestedTask data taskId hd ts]
      · rw [if_neg hch, namesOf_cons, namesOf_cons,
          namesOf_updateNestedTask data taskId hd ts]

theorem descsOf_updateNestedTask (data : PartialTask) (taskId : String)
    (hd : data.description = some "") :
    ∀ ts : List Task, descsOf (updateNestedTask data taskId ts) = descsOf ts
  | [] => by simp [updateNestedTask]
  | Task.mk i n d h c a dl cm ch pj :: ts => by
    simp only [updateNestedTask]
    by_cases hid : i = taskId
    · rw [if_pos hid, applyPatch_mk, hd, descsOf_cons, descsOf_cons,
        descsOf_updateNestedTask data taskId hd ts]
      simp [jsOrStr]
    · rw [if_neg hid]
      by_cases hch : 0 < ch.length
      · rw [if_pos hch, descsOf_cons, descsOf_cons,
          descsOf_updateNestedTask data taskId hd ch,
          descsOf_updateNestedTask data taskId hd ts]
      · rw [if_neg hch, descsOf_cons, descsOf_cons,
          descsOf_updateNestedTask data taskId hd ts]

/-- C10: implicit falsy-patch behaviour of `updateTask`.  The patched
node's children list is always forced back to its pre-patch children —
at tree level no patch, whatever its payload, can replace or clear any
children list (the nesting shape of the forest is invariant) — and a
patch whose `name` (respectively `description`) is the empty string
leaves every name (respectively description) in the tree unchanged: the
empty-string field of the patch is silently ignored. -/
theorem c10_falsy_patch :
    (∀ (data : PartialTask) (t : Task), (applyPatch data t).children = t.children) ∧
    (∀ (data : PartialTask) (t : Task), data.name = some "" →
      (applyPatch data t).name = t.name) ∧
    (∀ (data : PartialTask) (t : Task), data.description = some "" →
      (applyPatch data t).description = t.description) ∧
    (∀ (data : PartialTask) (taskId : String) (ts : List Task),
      shapeOf (updateNestedTask data taskId ts) = shapeOf ts) ∧
    (∀ (data : PartialTask) (taskId : String) (ts : List Task), data.name = some "" →
      namesOf (updateNestedTask data taskId ts) = namesOf ts) ∧
    (∀ (data : PartialTask) (taskId : String) (ts : List Task),
      data.description = some "" →
      descsOf (updateNestedTask data taskId ts) = descsOf ts) :=
  ⟨applyPatch_children, applyPatch_name_empty, applyPatch_description_empty,
   shapeOf_updateNestedTask,
   fun data taskId ts hd => namesOf_updateNestedTask data taskId hd ts,
   fun data taskId ts hd => descsOf_updateNestedTask data taskId hd ts⟩

/-- The patch `{ name: "" }`. -/
def justEmptyName : PartialTask :=
  ⟨none, some "", none, none, none, none, none, none, none, none⟩

/-- The patch `{ description: "" }`. -/
def justEmptyDesc : PartialTask :=
  ⟨none, none, some "", none, none, none, none, none, none, none⟩

/-- Witness for C10 at concrete inputs: patching the example tree's node
`"a"` with `{name: ""}` (respectively `{description: ""}`) keeps its
children, all names and all descriptions. -/
theorem c10_falsy_patch_witness :
    (applyPatch justEmptyName taskA).children = taskA.children ∧
    (applyPatch justEmptyName taskA).name = taskA.name ∧
    (applyPatch justEmptyDesc taskA).description = taskA.description ∧
    shapeOf (updateNestedTask justEmptyName "a" exForest) = shapeOf exForest ∧
    namesOf (updateNestedTask justEmptyName "a" exForest) = namesOf exForest ∧
    descsOf (updateNestedTask justEmptyDesc "a" exForest) = descsOf exForest :=
  ⟨c10_falsy_patch.1 justEmptyName taskA,
   c10_falsy_patch.2.1 justEmptyName taskA rfl,
   c10_falsy_patch.2.2.1 justEmptyDesc taskA rfl,
   c10_falsy_patch.2.2.2.1 justEmptyName "a" exForest,
   c10_falsy_patch.2.2.2.2.1 justEmptyName "a" exForest rfl,
   c10_falsy_patch.2.2.2.2.2 justEmptyDesc "a" exForest rfl⟩

end Shiptech
